import Mathlib

/-!
# Verification of the airag content-acquisition pipeline

A shallow embedding, in Lean 4, of the content-acquisition pipeline of the
`airag` repository: the HTML table structural parser
(`services/crawler/parsers/table_parser.py`), the document chunker and the
ingestion coordinator (`services/crawler/ingest.py`), and the crawl frontier
controller (`services/crawler/crawler.py`), together with proofs of the
behavioural properties stated in the design document.

Text is modelled as `List Char` (Python strings indexed by code point).
Python dictionaries built by index-ordered assignment are modelled as
association lists where the *last* binding of a key wins, matching
assignment/overwrite semantics.  Network, vector-store and embedding-model
effects are modelled as explicit function parameters returning pure values
(`Except` for fallible collaborators); the `while` loops of the crawler and
the chunker are modelled as fuel-indexed recursions, where running out of
fuel is observable (`Option.none` for the chunker, an unchanged residual
state for the crawler), so that termination and divergence are provable
facts rather than modelling artifacts.
-/

set_option autoImplicit false

namespace Airag

/-- Python strings, as lists of code points. -/
abbrev Str := List Char

/-- Python `str.lower()` (ASCII behaviour, which is all the code relies on). -/
def lowerStr (s : Str) : Str := s.map Char.toLower

/-- Python `needle in hay` substring test. -/
def containsSub (needle hay : Str) : Bool := decide (needle <:+: hay)

/-- Python `hay.startswith(needle)`. -/
def startsWith (needle hay : Str) : Bool := decide (needle <+: hay)

/-- Python `hay.endswith(needle)` (used for the `\.pdf$`-style anchored regexes). -/
def endsWith (needle hay : Str) : Bool := decide (needle <:+ hay)

/-- Python `sep.join(parts)`. -/
def strJoin (sep : Str) : List Str → Str
  | [] => []
  | [s] => s
  | s :: rest => s ++ sep ++ strJoin sep rest

/-! ## HTML table model

`table_parser.py` walks a BeautifulSoup `<table>` element.  The embedding
keeps exactly the structure the parser inspects: an optional `<caption>`
text, an optional heading element immediately preceding the table, the rows
of a `<thead>` section (empty list when there is none or it is empty — the
parser cannot tell these apart), whether a `<tbody>` element is present, and
the remaining rows (inside `<tbody>` when present, directly under the table
otherwise).  A cell records whether it is a `<th>` and its
`get_text(strip=True)` text. -/

structure HCell where
  isTh : Bool
  text : Str
deriving DecidableEq

abbrev HRow := List HCell

structure HTable where
  captionTag : Option Str
  prevHeading : Option Str
  theadRows : List HRow
  hasTbody : Bool
  bodyRows : List HRow
deriving DecidableEq

/-- The dictionary produced by `TableParser.parse_table`. -/
structure TableData where
  caption : Str
  headers : List Str
  rows : List (List Str)
  row_count : Nat
  column_count : Nat
deriving DecidableEq

/-- `TableParser._extract_caption`: explicit `<caption>`, else text of an
immediately preceding heading element, else `"Untitled Table"`. -/
def extract_caption (t : HTable) : Str :=
  match t.captionTag with
  | some c => c
  | none =>
    match t.prevHeading with
    | some h => h
    | none => "Untitled Table".data

/-- All `<tr>` elements of the table in document order (`table.find_all("tr")`
recurses into `<thead>` and `<tbody>`). -/
def allTrs (t : HTable) : List HRow := t.theadRows ++ t.bodyRows

/-- The rows of `table.find("tbody") or table`. -/
def tbodyScope (t : HTable) : List HRow :=
  if t.hasTbody then t.bodyRows else allTrs t

/-- `TableParser._extract_headers`: first `<thead>` row's cells (`th` or
`td`); else the first row's `<th>` cells if any, else its `<td>` cells; else
synthesized `Column 1..N` names from the first row of the tbody scope. -/
def extract_headers (t : HTable) : List Str :=
  let fromThead : List Str :=
    match t.theadRows.head? with
    | some hr => hr.map (·.text)
    | none => []
  if fromThead.isEmpty then
    let fromFirst : List Str :=
      match (allTrs t).head? with
      | some fr =>
        let ths := fr.filter (·.isTh)
        if ths.isEmpty then (fr.filter (fun c => !c.isTh)).map (·.text)
        else ths.map (·.text)
      | none => []
    if fromFirst.isEmpty then
      match (tbodyScope t).head? with
      | some fr => (List.range fr.length).map (fun i => ("Column " ++ toString (i + 1)).data)
      | none => []
    else fromFirst
  else fromThead

/-- `TableParser._extract_rows`: iterate the rows of the tbody scope, skip
the first one when it contains a `<th>`, keep exactly the rows whose cell
count equals `num_columns`. -/
def extract_rows (t : HTable) (num_columns : Nat) : List (List Str) :=
  let all_rows := tbodyScope t
  let skip_first : Bool :=
    match all_rows.head? with
    | some fr => fr.any (·.isTh)
    | none => false
  let data_rows := if skip_first then all_rows.tail else all_rows
  data_rows.filterMap fun tr =>
    if tr.length = num_columns then some (tr.map (·.text)) else none

/-- `TableParser.parse_table`: caption, headers, rows; `None` when no data
row was recovered. -/
def parse_table (t : HTable) : Option TableData :=
  let caption := extract_caption t
  let headers := extract_headers t
  let rows := extract_rows t headers.length
  if rows.isEmpty then none
  else some ⟨caption, headers, rows, rows.length, headers.length⟩

/-! ## Records, rate-table detection, location-rate extraction -/

/-- One row as a Python dict: index-ordered `record[headers[i]] = row[i]`
assignments, kept as an association list (`zip` stops at the shorter of the
two, matching the `if i < len(headers)` guard). -/
def recordOfRow (headers row : List Str) : List (Str × Str) :=
  headers.zip row

/-- Python `dict.get(k)`: the last assignment to `k` wins; `None` if absent. -/
def pyGet (record : List (Str × Str)) (k : Str) : Option Str :=
  ((record.filter fun p => p.1 == k).getLast?).map (·.2)

/-- `TableParser.table_to_records`. -/
def table_to_records (td : TableData) : List (List (Str × Str)) :=
  td.rows.map (recordOfRow td.headers)

/-- Terms the caption is scanned for in `detect_rate_table`. -/
def captionRateTerms : List Str := ["rate", "price", "cost", "fee"].map String.data

/-- Terms the space-joined headers are scanned for in `detect_rate_table`. -/
def headerRateTerms : List Str := ["rate", "price", "amount", "cost"].map String.data

/-- `TableParser.detect_rate_table`: caption contains one of
`{rate, price, cost, fee}`, or the lower-cased headers joined by `" "`
contain one of `{rate, price, amount, cost}`. -/
def detect_rate_table (td : TableData) : Bool :=
  let caption := lowerStr td.caption
  if captionRateTerms.any (fun t => containsSub t caption) then true
  else
    let headers := td.headers.map lowerStr
    headerRateTerms.any fun t => containsSub t (strJoin " ".data headers)

/-- The record emitted per qualifying row by `extract_location_rates`. -/
structure LocationRate where
  location : Str
  rate : Str
  rtype : Str
  source_table : Str
deriving DecidableEq

/-- Location-column header terms in `extract_location_rates`. -/
def locationTerms : List Str := ["location", "city", "place", "destination"].map String.data

/-- Rate-column header terms in `extract_location_rates`. -/
def rateColTerms : List Str := ["rate", "amount", "price", "per diem", "daily"].map String.data

/-- The `any(term in header for term in [...])` test run per header for the
location column. -/
def locHeaderTest (h : Str) : Bool := locationTerms.any fun t => containsSub t h

/-- The `any(term in header for term in [...])` test run per header for the
rate column. -/
def rateHeaderTest (h : Str) : Bool := rateColTerms.any fun t => containsSub t h

/-- `TableParser.extract_location_rates`: first lower-cased header containing
a location term gives the location column, first containing a rate term the
rate column; with both found, each record whose looked-up location and rate
values are truthy (present and non-empty) yields a `LocationRate`. -/
def extract_location_rates (td : TableData) : List LocationRate :=
  let records := table_to_records td
  let headers := td.headers.map lowerStr
  let location_col := headers.findIdx? locHeaderTest
  let rate_col := headers.findIdx? rateHeaderTest
  match location_col, rate_col with
  | some li, some ri =>
    records.filterMap fun record =>
      let header_list := td.headers
      if li < header_list.length ∧ ri < header_list.length then
        match pyGet record (header_list.getD li []), pyGet record (header_list.getD ri []) with
        | some location, some rate =>
          if location.isEmpty || rate.isEmpty then none
          else some ⟨location, rate, "location_rate".data, td.caption⟩
        | _, _ => none
      else none
  | _, _ => []

/-! ## Substring facts

`detect_rate_table` scans `" ".join(headers)` for its terms.  Because every
term is a single word (no space), a term occurs in the joined string exactly
when it occurs in one of the headers; the lemmas below establish this. -/

theorem not_sub_nil {n : Str} (hn : n ≠ []) : ¬ n <:+: ([] : Str) := by
  rintro ⟨s, t, hst⟩
  rcases List.append_eq_nil.mp hst with ⟨hsn, -⟩
  rcases List.append_eq_nil.mp hsn with ⟨-, hns⟩
  exact hn hns

theorem sub_ext_right {n l : Str} (l₂ : Str) : n <:+: l → n <:+: l ++ l₂ := by
  rintro ⟨s, t, hst⟩
  exact ⟨s, t ++ l₂, by rw [← hst]; simp⟩

theorem sub_ext_left {n l : Str} (l₂ : Str) : n <:+: l → n <:+: l₂ ++ l := by
  rintro ⟨s, t, hst⟩
  exact ⟨l₂ ++ s, t, by rw [← hst]; simp⟩

/-- A prefix of `a ++ c :: b` that avoids `c` is a prefix of `a`. -/
theorem pre_before_sep {c : Char} :
    ∀ {n : Str} (a : Str) {b : Str}, c ∉ n → n <+: a ++ c :: b → n <+: a := by
  intro n
  induction n with
  | nil => exact fun a _ _ _ => ⟨a, by simp⟩
  | cons y ys ih =>
    intro a b hc hp
    obtain ⟨t, ht⟩ := hp
    cases a with
    | nil =>
      simp only [List.nil_append, List.cons_append, List.cons.injEq] at ht
      exact absurd (ht.1 ▸ List.mem_cons_self y ys) hc
    | cons z a' =>
      simp only [List.cons_append, List.cons.injEq] at ht
      have hc' : c ∉ ys := fun hmem => hc (List.mem_cons_of_mem y hmem)
      obtain ⟨u, hu⟩ := ih a' hc' ⟨t, ht.2⟩
      exact ⟨u, by simp [ht.1, hu]⟩

/-- A substring of `a ++ c :: b` that avoids `c` lies inside `a` or inside `b`. -/
theorem sub_before_or_after {c : Char} :
    ∀ (a : Str) {n b : Str}, c ∉ n → n <:+: a ++ c :: b → n <:+: a ∨ n <:+: b := by
  intro a
  induction a with
  | nil =>
    rintro n b hc ⟨s, t, hst⟩
    cases s with
    | nil =>
      cases n with
      | nil => exact Or.inl ⟨[], [], rfl⟩
      | cons y ys =>
        simp only [List.nil_append, List.cons_append, List.cons.injEq] at hst
        exact absurd (hst.1 ▸ List.mem_cons_self y ys) hc
    | cons s0 ss =>
      simp only [List.nil_append, List.cons_append, List.cons.injEq] at hst
      exact Or.inr ⟨ss, t, hst.2⟩
  | cons x a' ih =>
    rintro n b hc ⟨s, t, hst⟩
    cases s with
    | nil =>
      have hp : n <+: (x :: a') ++ c :: b := ⟨t, by simpa using hst⟩
      obtain ⟨u, hu⟩ := pre_before_sep (x :: a') hc hp
      exact Or.inl ⟨[], u, by simpa using hu⟩
    | cons s0 ss =>
      simp only [List.cons_append, List.cons.injEq] at hst
      rcases ih hc ⟨ss, t, hst.2⟩ with h | h
      · exact Or.inl (sub_ext_left [x] h)
      · exact Or.inr h

/-- A space-free, non-empty needle occurs in `" ".join(parts)` exactly when
it occurs in one of the parts. -/
theorem sub_strJoin_single {c : Char} {n : Str} (hc : c ∉ n) (hn : n ≠ []) :
    ∀ parts : List Str, n <:+: strJoin [c] parts ↔ ∃ h ∈ parts, n <:+: h := by
  intro parts
  induction parts with
  | nil => simpa [strJoin] using not_sub_nil hn
  | cons h1 tl ih =>
    cases tl with
    | nil => simp [strJoin]
    | cons h2 tl' =>
      have hshape : strJoin [c] (h1 :: h2 :: tl') = h1 ++ c :: strJoin [c] (h2 :: tl') := by
        simp [strJoin]
      rw [hshape]
      constructor
      · intro hsub
        rcases sub_before_or_after h1 hc hsub with h | h
        · exact ⟨h1, by simp, h⟩
        · obtain ⟨hh, hmem, hsubh⟩ := ih.mp h
          exact ⟨hh, List.mem_cons_of_mem h1 hmem, hsubh⟩
      · rintro ⟨hh, hmem, hsubh⟩
        rcases List.mem_cons.mp hmem with rfl | hmem'
        · simpa using sub_ext_right ([c] ++ strJoin [c] (h2 :: tl')) hsubh
        · have : n <:+: strJoin [c] (h2 :: tl') := ih.mpr ⟨hh, hmem', hsubh⟩
          have := sub_ext_left (h1 ++ [c]) this
          simpa using this

theorem containsSub_iff {n h : Str} : containsSub n h = true ↔ n <:+: h := by
  simp [containsSub]

/-! ## C6 — rate-table detection -/

/-- Modelled from the spec's words: "a table is a 'rate table' if its caption
or any header contains a case-insensitive substring from
`{rate, price, cost, fee, amount}`".  Stated as written, with one shared term
set for caption and headers. -/
def specRateTable (td : TableData) : Prop :=
  ∃ t ∈ (["rate", "price", "cost", "fee", "amount"].map String.data),
    (t <:+: lowerStr td.caption ∨ ∃ h ∈ td.headers, t <:+: lowerStr h)

instance (td : TableData) : Decidable (specRateTable td) := by
  unfold specRateTable; infer_instance

/-- A table whose caption contains "amount" (spec: a rate table) but which
`detect_rate_table` rejects: the code scans the caption only for
`{rate, price, cost, fee}`. -/
def c6Table : TableData :=
  { caption := "Amount Due".data
    headers := ["x".data]
    rows := [["1".data]]
    row_count := 1
    column_count := 1 }

/-- C6 (counterexample): the claim "rate-table detection returns true exactly
when the table's caption or at least one header contains, case-insensitively,
a substring from the set {rate, price, cost, fee, amount}" is false:
`c6Table`'s caption contains "amount", so the claimed characterization holds
of it, yet `detect_rate_table` returns `false` (the code checks the caption
against `{rate, price, cost, fee}` only — and, symmetrically, headers are
never checked for "fee"). -/
theorem c6_claim_counterexample :
    detect_rate_table c6Table = false ∧ specRateTable c6Table := by
  constructor
  · decide
  · decide

/-- C6 (amended): rate-table detection returns true exactly when the caption
contains, case-insensitively, a substring from `{rate, price, cost, fee}`, or
at least one header contains a substring from `{rate, price, amount, cost}`. -/
theorem c6_rate_table_detection (td : TableData) :
    detect_rate_table td = true ↔
      ((∃ t ∈ captionRateTerms, t <:+: lowerStr td.caption) ∨
        ∃ t ∈ headerRateTerms, ∃ h ∈ td.headers, t <:+: lowerStr h) := by
  have hterms : ∀ t ∈ headerRateTerms, (' ' ∉ t ∧ t ≠ []) := by decide
  unfold detect_rate_table
  by_cases hcap : captionRateTerms.any (fun t => containsSub t (lowerStr td.caption)) = true
  · simp only [hcap, if_true, true_iff]
    rcases List.any_eq_true.mp hcap with ⟨t, htmem, htsub⟩
    exact Or.inl ⟨t, htmem, containsSub_iff.mp htsub⟩
  · simp only [hcap, if_false, Bool.false_eq_true]
    rw [List.any_eq_true]
    constructor
    · rintro ⟨t, htmem, htsub⟩
      obtain ⟨hc, hn⟩ := hterms t htmem
      have hj := containsSub_iff.mp htsub
      obtain ⟨h, hmem, hsubh⟩ := (sub_strJoin_single hc hn _).mp hj
      obtain ⟨h0, hm0, rfl⟩ := List.mem_map.mp hmem
      exact Or.inr ⟨t, htmem, h0, hm0, hsubh⟩
    · rintro (⟨t, htmem, htsub⟩ | ⟨t, htmem, h0, hm0, hsubh⟩)
      · have hany : (captionRateTerms.any fun s => containsSub s (lowerStr td.caption)) = true := by
          refine List.any_eq_true.mpr ⟨t, htmem, ?_⟩
          exact containsSub_iff.mpr htsub
        exact absurd hany hcap
      · refine ⟨t, htmem, containsSub_iff.mpr ?_⟩
        obtain ⟨hc, hn⟩ := hterms t htmem
        exact (sub_strJoin_single hc hn _).mpr ⟨lowerStr h0, List.mem_map_of_mem lowerStr hm0, hsubh⟩

/-! ## C2 — table shape -/

theorem extract_rows_mem_length {t : HTable} {k : Nat} :
    ∀ r ∈ extract_rows t k, r.length = k := by
  intro r hr
  unfold extract_rows at hr
  obtain ⟨tr, -, htr⟩ := List.mem_filterMap.mp hr
  by_cases hlen : tr.length = k
  · simp only [hlen, if_true, Option.some.injEq] at htr
    simpa [← htr] using hlen
  · simp [hlen] at htr

theorem filterMap_rows_all_kept {k : Nat} :
    ∀ rows : List HRow, (∀ r ∈ rows, r.length = k) →
      (rows.filterMap fun tr => if tr.length = k then some (tr.map (·.text)) else none) =
        rows.map (·.map (·.text)) := by
  intro rows
  induction rows with
  | nil => intro _; rfl
  | cons r rest ih =>
    intro h
    have hr : r.length = k := h r (by simp)
    have hrest := ih fun x hx => h x (List.mem_cons_of_mem r hx)
    simp [List.filterMap_cons, hr, hrest]

theorem any_isTh_false {r : HRow} (h : ∀ c ∈ r, c.isTh = false) :
    r.any (·.isTh) = false := by
  rw [List.any_eq_false]
  intro c hc
  simp [h c hc]

/-- When the tbody scope starts with a `<th>`-free row and every row matches
the expected width, `extract_rows` keeps every row. -/
theorem extract_rows_no_th {t : HTable} {k : Nat} {rows : List HRow}
    (hscope : tbodyScope t = rows)
    (hdata : ∀ r ∈ rows, r.length = k ∧ ∀ c ∈ r, c.isTh = false) :
    extract_rows t k = rows.map (·.map (·.text)) := by
  unfold extract_rows
  rw [hscope]
  cases rows with
  | nil => rfl
  | cons fr rest =>
    have hfr := hdata fr (by simp)
    simp only [List.head?_cons, any_isTh_false hfr.2, Bool.false_eq_true, if_false]
    exact filterMap_rows_all_kept (fr :: rest) fun r h => (hdata r h).1

/-- When the tbody scope starts with a header row containing a `<th>`,
`extract_rows` skips it and keeps the matching data rows. -/
theorem extract_rows_skip_th {t : HTable} {k : Nat} {hrow : HRow} {dataRows : List HRow}
    (hscope : tbodyScope t = hrow :: dataRows)
    (hth : hrow.any (·.isTh) = true)
    (hdata : ∀ r ∈ dataRows, r.length = k ∧ ∀ c ∈ r, c.isTh = false) :
    extract_rows t k = dataRows.map (·.map (·.text)) := by
  unfold extract_rows
  rw [hscope]
  simp only [List.head?_cons, hth, if_true, List.tail_cons]
  exact filterMap_rows_all_kept dataRows fun r h => (hdata r h).1

/-- `parse_table` on a well-formed table: the header row is a single `<thead>`
row containing at least one `<th>`, or (with no `<thead>`) the first row
consists entirely of `<th>` cells; the data rows are `<td>`-only and all have
exactly the header width.  The result is the expected `TableData`. -/
theorem parse_table_shape :
    (∀ (t : HTable) (hr : HRow),
      t.theadRows = [hr] → hr ≠ [] → hr.any (·.isTh) = true →
      (∀ r ∈ t.bodyRows, r.length = hr.length ∧ ∀ c ∈ r, c.isTh = false) →
      t.bodyRows ≠ [] →
      parse_table t = some ⟨extract_caption t, hr.map (·.text),
        t.bodyRows.map (·.map (·.text)), t.bodyRows.length, hr.length⟩) ∧
    (∀ (t : HTable) (hrow : HRow) (dataRows : List HRow),
      t.theadRows = [] → t.bodyRows = hrow :: dataRows → hrow ≠ [] →
      (∀ c ∈ hrow, c.isTh = true) →
      (∀ r ∈ dataRows, r.length = hrow.length ∧ ∀ c ∈ r, c.isTh = false) →
      dataRows ≠ [] →
      parse_table t = some ⟨extract_caption t, hrow.map (·.text),
        dataRows.map (·.map (·.text)), dataRows.length, hrow.length⟩) := by
  constructor
  · intro t hr ht hhr hth hdata hM
    have hheaders : extract_headers t = hr.map (·.text) := by
      unfold extract_headers
      simp [ht, List.isEmpty_iff, hhr]
    have hrows : extract_rows t hr.length = t.bodyRows.map (·.map (·.text)) := by
      by_cases htb : t.hasTbody
      · have hscope : tbodyScope t = t.bodyRows := by
          unfold tbodyScope; simp [htb]
        exact extract_rows_no_th hscope hdata
      · have hscope : tbodyScope t = hr :: t.bodyRows := by
          unfold tbodyScope allTrs; simp [htb, ht]
        exact extract_rows_skip_th hscope hth hdata
    unfold parse_table
    simp only [hheaders, List.length_map, hrows]
    have hne : (t.bodyRows.map (·.map (·.text))).isEmpty = false := by
      simp [List.isEmpty_iff, hM]
    simp [hne]
  · intro t hrow dataRows ht hb hhrow hall hdata hM
    have hfilter : hrow.filter (·.isTh) = hrow :=
      List.filter_eq_self.mpr fun c hc => by simp [hall c hc]
    have hheaders : extract_headers t = hrow.map (·.text) := by
      unfold extract_headers allTrs
      simp only [ht, List.head?_nil, List.isEmpty_nil, if_true, List.nil_append, hb,
        List.head?_cons, hfilter]
      simp [List.isEmpty_iff, hhrow]
    have hany : hrow.any (·.isTh) = true := by
      obtain ⟨c, hc⟩ : ∃ c, c ∈ hrow := by
        cases hrow with
        | nil => exact absurd rfl hhrow
        | cons c cs => exact ⟨c, by simp⟩
      exact List.any_eq_true.mpr ⟨c, hc, hall c hc⟩
    have hrows : extract_rows t hrow.length = dataRows.map (·.map (·.text)) := by
      have hscope : tbodyScope t = hrow :: dataRows := by
        unfold tbodyScope allTrs
        by_cases htb : t.hasTbody <;> simp [htb, ht, hb]
      exact extract_rows_skip_th hscope hany hdata
    unfold parse_table
    simp only [hheaders, List.length_map, hrows]
    have hne : (dataRows.map (·.map (·.text))).isEmpty = false := by
      simp [List.isEmpty_iff, hM]
    simp [hne]

/-- A table with a one-cell `<thead>` header row and zero data rows. -/
def c2Table : HTable :=
  { captionTag := none, prevHeading := none,
    theadRows := [[⟨true, "H".data⟩]], hasTbody := true, bodyRows := [] }

/-- A table whose `<thead>` header row uses `<td>` cells, with no `<tbody>`
and one matching data row. -/
def c2LeakTable : HTable :=
  { captionTag := none, prevHeading := none,
    theadRows := [[⟨false, "H".data⟩]], hasTbody := false, bodyRows := [[⟨false, "a".data⟩]] }

/-- C2 (counterexample): the claim fails as stated in two ways.  With N = 1
header cells and M = 0 data rows `parse_table` returns `None`, not a Table
with `rows` of length 0.  And when the `<thead>` header row is made of `<td>`
cells and there is no `<tbody>`, the header row itself is counted as a data
row: with M = 1 matching data rows the result has `row_count` 2, not 1. -/
theorem c2_claim_counterexample :
    parse_table c2Table = none ∧
      (parse_table c2LeakTable).map TableData.row_count = some 2 := by
  constructor
  · decide
  · decide

/-- C2 (amended): for every HTML table whose header row is the single row of
a `<thead>` and contains at least one `<th>` cell — or, with no `<thead>`, is
a first row made entirely of `<th>` cells — with N ≥ 1 cells, and which has
M ≥ 1 data rows of `<td>`-only cells each with exactly N cells, `parse_table`
returns a Table whose `headers` has length N, whose `rows` has length M, and
whose `row_count` and `column_count` equal M and N; and in every parse, any
row whose cell count differs from the header count is dropped from `rows`,
never padded or truncated. -/
theorem c2_table_shape :
    (∀ (t : HTable) (hr : HRow),
      t.theadRows = [hr] → hr ≠ [] → hr.any (·.isTh) = true →
      (∀ r ∈ t.bodyRows, r.length = hr.length ∧ ∀ c ∈ r, c.isTh = false) →
      t.bodyRows ≠ [] →
      ∃ td, parse_table t = some td ∧ td.headers.length = hr.length ∧
        td.rows.length = t.bodyRows.length ∧
        td.row_count = t.bodyRows.length ∧ td.column_count = hr.length) ∧
    (∀ (t : HTable) (hrow : HRow) (dataRows : List HRow),
      t.theadRows = [] → t.bodyRows = hrow :: dataRows → hrow ≠ [] →
      (∀ c ∈ hrow, c.isTh = true) →
      (∀ r ∈ dataRows, r.length = hrow.length ∧ ∀ c ∈ r, c.isTh = false) →
      dataRows ≠ [] →
      ∃ td, parse_table t = some td ∧ td.headers.length = hrow.length ∧
        td.rows.length = dataRows.length ∧
        td.row_count = dataRows.length ∧ td.column_count = hrow.length) ∧
    (∀ (t : HTable) (k : Nat), ∀ r ∈ extract_rows t k, r.length = k) := by
  refine ⟨?_, ?_, fun t k => extract_rows_mem_length⟩
  · intro t hr ht hhr hth hdata hM
    exact ⟨_, parse_table_shape.1 t hr ht hhr hth hdata hM, by simp, by simp, rfl, by simp⟩
  · intro t hrow dataRows ht hb hhrow hall hdata hM
    exact ⟨_, parse_table_shape.2 t hrow dataRows ht hb hhrow hall hdata hM, by simp, by simp,
      rfl, by simp⟩

/-- A concrete well-formed table: 2 `<thead>` header cells, 2 data rows. -/
def c2WitnessTable : HTable :=
  { captionTag := none, prevHeading := none,
    theadRows := [[⟨true, "H1".data⟩, ⟨true, "H2".data⟩]],
    hasTbody := true,
    bodyRows := [[⟨false, "a".data⟩, ⟨false, "b".data⟩],
                 [⟨false, "c".data⟩, ⟨false, "d".data⟩]] }

/-- Witness for `c2_table_shape` at a concrete table with N = 2, M = 2. -/
theorem c2_table_shape_witness :
    ∃ td, parse_table c2WitnessTable = some td ∧ td.headers.length = 2 ∧
      td.rows.length = 2 ∧ td.row_count = 2 ∧ td.column_count = 2 :=
  c2_table_shape.1 c2WitnessTable [⟨true, "H1".data⟩, ⟨true, "H2".data⟩]
    rfl (by decide) (by decide) (by decide) (by decide)

/-! ## C7 / C9 — location-rate extraction -/

/-- `i` is the first index of `hs` whose lower-cased entry passes `p`. -/
def firstMatchIdx (p : Str → Bool) (hs : List Str) (i : Nat) : Prop :=
  i < hs.length ∧ p (lowerStr (hs.getD i [])) = true ∧
    ∀ j < i, p (lowerStr (hs.getD j [])) = false

instance (p : Str → Bool) (hs : List Str) (i : Nat) : Decidable (firstMatchIdx p hs i) := by
  unfold firstMatchIdx
  infer_instance

theorem findIdx?_eq_some_of_first {α : Type} {p : α → Bool} {d : α} :
    ∀ (l : List α) (i : Nat), i < l.length → p (l.getD i d) = true →
      (∀ j < i, p (l.getD j d) = false) → List.findIdx? p l = some i := by
  intro l
  induction l with
  | nil => intro i hi _ _; exact absurd hi (by simp)
  | cons x xs ih =>
    intro i hi hp hmin
    cases i with
    | zero =>
      rw [List.findIdx?_cons]
      simp only [List.getD_cons_zero] at hp
      simp [hp]
    | succ k =>
      have hx : p x = false := by simpa using hmin 0 (Nat.succ_pos k)
      rw [List.findIdx?_cons, hx]
      simp only [Bool.false_eq_true, if_false]
      rw [List.findIdx?_succ]
      have hrec := ih k (by simpa using hi) (by simpa using hp)
        (fun j hj => by simpa using hmin (j + 1) (Nat.succ_lt_succ hj))
      rw [hrec]
      rfl

theorem getD_map_lower (hs : List Str) (k : Nat) :
    (hs.map lowerStr).getD k [] = lowerStr (hs.getD k []) := by
  induction hs generalizing k with
  | nil => cases k <;> simp [lowerStr]
  | cons h t ih =>
    cases k with
    | zero => simp [List.getD_cons_zero]
    | succ n =>
      simp only [List.map_cons, List.getD_cons_succ]
      exact ih n

/-- Looking up the `i`-th header in a row-record built from headers without
duplicates returns the `i`-th cell of the row. -/
theorem pyGet_zip {hs rw0 : List Str} {i : Nat} (hnd : hs.Nodup)
    (hlen : rw0.length = hs.length) (hi : i < hs.length) :
    pyGet (hs.zip rw0) (hs.getD i []) = some (rw0.getD i []) := by
  induction hs generalizing rw0 i with
  | nil => simp at hi
  | cons x hs' ih =>
    cases rw0 with
    | nil => simp at hlen
    | cons y rw' =>
      have hx_not : x ∉ hs' := (List.nodup_cons.mp hnd).1
      have hnd' : hs'.Nodup := (List.nodup_cons.mp hnd).2
      have hlen' : rw'.length = hs'.length := by simpa using hlen
      cases i with
      | zero =>
        have hfilt : ((hs'.zip rw').filter fun p => p.1 == x) = [] := by
          rw [List.filter_eq_nil_iff]
          intro p hp
          have hp1 : p.1 ∈ hs' := (List.of_mem_zip hp).1
          intro hbeq
          exact hx_not (eq_of_beq hbeq ▸ hp1)
        simp only [List.zip_cons_cons, List.getD_cons_zero]
        unfold pyGet
        rw [List.filter_cons]
        simp only [beq_self_eq_true, if_true, hfilt]
        rfl
      | succ k =>
        have hk : k < hs'.length := by simpa using hi
        have hkey_mem : hs'.getD k [] ∈ hs' := by
          rw [List.getD_eq_getElem hs' [] hk]
          exact List.getElem_mem hk
        have hxk : (x == hs'.getD k []) = false := by
          cases hbeq : x == hs'.getD k [] with
          | false => rfl
          | true => exact absurd (eq_of_beq hbeq ▸ hkey_mem) hx_not
        have hih := ih hnd' hlen' hk
        simp only [List.zip_cons_cons, List.getD_cons_succ]
        unfold pyGet
        rw [List.filter_cons]
        simp only [hxk, Bool.false_eq_true, if_false]
        unfold pyGet at hih
        exact hih

/-- Modelled from the spec's words, for comparison with
`extract_location_rates`: with the location column `i` and the rate column
`j` identified, a row yields a record exactly when both the location cell
and the rate cell are non-empty. -/
def specRecOfRow (td : TableData) (i j : Nat) (row : List Str) : Option LocationRate :=
  if row.getD i [] ≠ [] ∧ row.getD j [] ≠ [] then
    some ⟨row.getD i [], row.getD j [], "location_rate".data, td.caption⟩
  else none

/-- With first-match columns `i`, `j`, duplicate-free headers and full-width
rows, `extract_location_rates` is row-by-row extraction of the two cells. -/
theorem extract_eq_spec {td : TableData} {i j : Nat}
    (hloc : firstMatchIdx locHeaderTest td.headers i)
    (hrate : firstMatchIdx rateHeaderTest td.headers j)
    (hnd : td.headers.Nodup)
    (hrows : ∀ r ∈ td.rows, r.length = td.headers.length) :
    extract_location_rates td = td.rows.filterMap (specRecOfRow td i j) := by
  obtain ⟨hi, hpi, hmini⟩ := hloc
  obtain ⟨hj, hpj, hminj⟩ := hrate
  have hfi : (td.headers.map lowerStr).findIdx? locHeaderTest = some i := by
    refine findIdx?_eq_some_of_first (d := []) _ i (by simpa using hi) ?_ ?_
    · rw [getD_map_lower]; exact hpi
    · intro k hk; rw [getD_map_lower]; exact hmini k hk
  have hfj : (td.headers.map lowerStr).findIdx? rateHeaderTest = some j := by
    refine findIdx?_eq_some_of_first (d := []) _ j (by simpa using hj) ?_ ?_
    · rw [getD_map_lower]; exact hpj
    · intro k hk; rw [getD_map_lower]; exact hminj k hk
  unfold extract_location_rates
  simp only [hfi, hfj]
  unfold table_to_records
  rw [List.filterMap_map]
  refine List.filterMap_congr ?_
  intro row hrow
  have hlen := hrows row hrow
  simp only [Function.comp_apply]
  rw [if_pos ⟨hi, hj⟩]
  unfold recordOfRow
  rw [pyGet_zip hnd hlen hi, pyGet_zip hnd hlen hj]
  unfold specRecOfRow
  by_cases h1 : row[i]?.getD ([] : Str) = []
  · simp [List.getD, h1]
  · by_cases h2 : row[j]?.getD ([] : Str) = []
    · simp [List.getD, h1, h2]
    · simp [List.getD, h1, h2]

/-- The per-diem example table of the spec. -/
def perDiemTable : HTable :=
  { captionTag := some "Per Diem Rates".data
    prevHeading := none
    theadRows := [[⟨true, "City".data⟩, ⟨true, "Daily Rate".data⟩]]
    hasTbody := true
    bodyRows := [[⟨false, "Denver".data⟩, ⟨false, "$55".data⟩]] }

/-- What `parse_table` produces for `perDiemTable`. -/
def perDiemData : TableData :=
  { caption := "Per Diem Rates".data
    headers := ["City".data, "Daily Rate".data]
    rows := [["Denver".data, "$55".data]]
    row_count := 1
    column_count := 2 }

/-- C7: location-rate extraction (a) yields the empty list whenever no
header contains a location term or no header contains a rate term; (b) on a
table captioned "Per Diem Rates" with headers ["City", "Daily Rate"] and the
single row ["Denver", "$55"], yields exactly one record
{location: "Denver", rate: "$55", type: "location_rate",
source_table: "Per Diem Rates"}; (c) with the location and rate columns
picked as the first headers containing (case-insensitively) a term from
{location, city, place, destination} resp. {rate, amount, price, per diem,
daily}, by independent first-match scans, extraction maps each full-width
row (headers duplicate-free) to the record of its two cells. -/
theorem c7_location_rate_extraction :
    (∀ td : TableData,
        ((∀ h ∈ td.headers, locHeaderTest (lowerStr h) = false) ∨
          (∀ h ∈ td.headers, rateHeaderTest (lowerStr h) = false)) →
        extract_location_rates td = []) ∧
    (parse_table perDiemTable = some perDiemData ∧
      extract_location_rates perDiemData =
        [⟨"Denver".data, "$55".data, "location_rate".data, "Per Diem Rates".data⟩]) ∧
    (∀ (td : TableData) (i j : Nat),
        firstMatchIdx locHeaderTest td.headers i →
        firstMatchIdx rateHeaderTest td.headers j →
        td.headers.Nodup →
        (∀ r ∈ td.rows, r.length = td.headers.length) →
        extract_location_rates td = td.rows.filterMap (specRecOfRow td i j)) := by
  refine ⟨?_, ⟨by decide, by decide⟩, fun td i j hl hr hnd hlen => extract_eq_spec hl hr hnd hlen⟩
  intro td hnone
  unfold extract_location_rates
  rcases hnone with hnone | hnone
  · have hcol : (td.headers.map lowerStr).findIdx? locHeaderTest = none := by
      rw [List.findIdx?_eq_none_iff]
      intro x hx
      obtain ⟨h0, hm0, rfl⟩ := List.mem_map.mp hx
      exact hnone h0 hm0
    simp only [hcol]
  · have hcol : (td.headers.map lowerStr).findIdx? rateHeaderTest = none := by
      rw [List.findIdx?_eq_none_iff]
      intro x hx
      obtain ⟨h0, hm0, rfl⟩ := List.mem_map.mp hx
      exact hnone h0 hm0
    simp only [hcol]
    cases (td.headers.map lowerStr).findIdx? locHeaderTest <;> rfl

/-- C9: rows with an empty location or rate cell are silently omitted — under
the first-match hypotheses, extraction equals the per-row mapping, and the
per-row mapping sends any row whose location or rate cell is empty to
`none`. -/
theorem c9_empty_cells_omitted :
    ∀ (td : TableData) (i j : Nat) (row : List Str),
      firstMatchIdx locHeaderTest td.headers i →
      firstMatchIdx rateHeaderTest td.headers j →
      td.headers.Nodup →
      (∀ r ∈ td.rows, r.length = td.headers.length) →
      (row.getD i [] = [] ∨ row.getD j [] = []) →
      extract_location_rates td = td.rows.filterMap (specRecOfRow td i j) ∧
        specRecOfRow td i j row = none := by
  intro td i j row hl hr hnd hlen hempty
  refine ⟨extract_eq_spec hl hr hnd hlen, ?_⟩
  unfold specRecOfRow
  rcases hempty with h | h
  · rw [List.getD_eq_getElem?_getD] at h
    simp [List.getD_eq_getElem?_getD, h]
  · rw [List.getD_eq_getElem?_getD] at h
    simp [List.getD_eq_getElem?_getD, h]

/-- Witness for `c9_empty_cells_omitted` at the per-diem table and a row
whose rate cell is empty. -/
theorem c9_empty_cells_omitted_witness :
    extract_location_rates perDiemData =
        perDiemData.rows.filterMap (specRecOfRow perDiemData 0 1) ∧
      specRecOfRow perDiemData 0 1 ["Denver".data, []] = none :=
  c9_empty_cells_omitted perDiemData 0 1 ["Denver".data, []]
    (by decide) (by decide) (by decide) (by decide) (Or.inr rfl)

/-! ## Chunker and ingestion coordinator (`services/crawler/ingest.py`)

The `DocumentIngestor` configuration that the embedded functions read. -/

structure IngestConfig where
  chunk_size : Nat := 512
  chunk_overlap : Nat := 50
deriving DecidableEq

/-- A parsed document as consumed by `ingest_documents` (the dict fields
`_chunk_document` reads; `doc.get("text", "")` is `text`'s default). -/
structure IngestDoc where
  text : Str := []
  url : Option Str := none
  title : Option Str := none
  dtype : Option Str := none
  metadata : Option (List (Str × Str)) := none
  structured_data : Option Str := none
deriving DecidableEq

/-- A chunk dict as built by `_chunk_document`. -/
structure Chunk where
  text : Str
  url : Option Str
  title : Option Str
  ctype : Str
  chunk_number : Nat
  metadata : List (Str × Str)
  structured_data : Option Str
deriving DecidableEq

/-- Python truthiness of an optional string (`if doc.get("structured_data")`). -/
def pyTruthy (o : Option Str) : Bool :=
  match o with
  | none => false
  | some s => !s.isEmpty

/-- The chunk dict built for window `[start, start + chunk_size)`. -/
def mkChunk (cfg : IngestConfig) (doc : IngestDoc) (start num : Nat) : Chunk :=
  { text := (doc.text.drop start).take cfg.chunk_size
    url := doc.url
    title := doc.title
    ctype := doc.dtype.getD "text".data
    chunk_number := num
    metadata := doc.metadata.getD []
    structured_data := if pyTruthy doc.structured_data then doc.structured_data else none }

/-- The `while start < len(text)` loop of `_chunk_document`, as a
fuel-indexed recursion: one fuel unit per iteration, `none` when the fuel
runs out before the loop exits (i.e. the loop would still be running). -/
def chunkLoop (cfg : IngestConfig) (doc : IngestDoc) : Nat → Nat → Nat → Option (List Chunk)
  | 0, start, _ => if start < doc.text.length then none else some []
  | fuel + 1, start, num =>
    if start < doc.text.length then
      (chunkLoop cfg doc fuel (start + cfg.chunk_size - cfg.chunk_overlap) (num + 1)).map
        fun rest => mkChunk cfg doc start num :: rest
    else some []

/-- `DocumentIngestor._chunk_document`: empty text yields no chunks;
otherwise run the window loop (one window per iteration starting at 0,
advancing by `chunk_size - chunk_overlap`).  `text.length` fuel units always
suffice when the loop terminates at all. -/
def chunk_document (cfg : IngestConfig) (doc : IngestDoc) : List Chunk :=
  if doc.text.isEmpty then []
  else (chunkLoop cfg doc doc.text.length 0 0).getD []

/-- Embedding vectors (their numeric content is irrelevant here). -/
abbrev Vec := List Int

/-- A vector-store point: embedding vector plus the chunk as payload (the
generated UUID id is irrelevant to the properties and omitted). -/
structure Point where
  vector : Vec
  payload : Chunk
deriving DecidableEq

/-- `DocumentIngestor.ingest_documents`, with the embedding model and the
vector store as explicit fallible collaborators.  Per document: chunk; skip
when no chunks; embed the chunk texts; zip into points; upsert.  Any
collaborator failure skips just that document (`try/except` per document).
Returns `len(documents)` and the list of successfully upserted point
batches. -/
def ingest_documents (cfg : IngestConfig)
    (embedF : List Str → Except Unit (List Vec))
    (upsertF : List Point → Except Unit Unit)
    (documents : List IngestDoc) : Nat × List (List Point) :=
  if documents.isEmpty then (0, [])
  else
    let store := documents.foldl (fun acc doc =>
      let chunks := chunk_document cfg doc
      if chunks.isEmpty then acc
      else
        match embedF (chunks.map (·.text)) with
        | .error _ => acc
        | .ok embeddings =>
          let points := (chunks.zip embeddings).map fun p => Point.mk p.2 p.1
          match upsertF points with
          | .error _ => acc
          | .ok _ => acc ++ [points]) []
    (documents.length, store)

/-! ## C4 / C5 — chunk window properties -/

/-- Master soundness lemma for the chunk loop under the `overlap < size`
precondition: with at least `len - start` fuel the loop completes, every
chunk carries the slice of its own window, the windows cover
`[start, len)`, chunk numbers run consecutively from `num`, and with zero
overlap the chunk texts concatenate to the tail of the text. -/
theorem chunkLoop_sound (cfg : IngestConfig) (doc : IngestDoc)
    (hov : cfg.chunk_overlap < cfg.chunk_size) :
    ∀ (fuel start num : Nat), doc.text.length - start ≤ fuel →
      start = num * (cfg.chunk_size - cfg.chunk_overlap) →
      ∃ cs, chunkLoop cfg doc fuel start num = some cs ∧
        (∀ c ∈ cs, c.text =
          (doc.text.drop (c.chunk_number * (cfg.chunk_size - cfg.chunk_overlap))).take
            cfg.chunk_size) ∧
        (∀ i, start ≤ i → i < doc.text.length →
          ∃ c ∈ cs, c.chunk_number * (cfg.chunk_size - cfg.chunk_overlap) ≤ i ∧
            i < c.chunk_number * (cfg.chunk_size - cfg.chunk_overlap) + cfg.chunk_size) ∧
        cs.map (·.chunk_number) = List.range' num cs.length ∧
        (cfg.chunk_overlap = 0 → (cs.map (·.text)).flatten = doc.text.drop start) := by
  intro fuel
  induction fuel with
  | zero =>
    intro start num hfuel hstart
    have hge : doc.text.length ≤ start := by omega
    refine ⟨[], by simp [chunkLoop, Nat.not_lt_of_le hge], by simp, ?_, by simp, ?_⟩
    · intro i hsi hil
      omega
    · intro _
      symm
      simpa using List.drop_eq_nil_of_le hge
  | succ f ih =>
    intro start num hfuel hstart
    by_cases hlt : start < doc.text.length
    · have hstep : 1 ≤ cfg.chunk_size - cfg.chunk_overlap := by omega
      have hnext : start + cfg.chunk_size - cfg.chunk_overlap =
          (num + 1) * (cfg.chunk_size - cfg.chunk_overlap) := by
        rw [Nat.succ_mul, ← hstart]
        omega
      have hfuel' : doc.text.length - (start + cfg.chunk_size - cfg.chunk_overlap) ≤ f := by
        clear hnext hstart
        omega
      obtain ⟨cs, hcs, hslice, hcover, hnums, hjoin⟩ :=
        ih (start + cfg.chunk_size - cfg.chunk_overlap) (num + 1) hfuel' hnext
      refine ⟨mkChunk cfg doc start num :: cs, ?_, ?_, ?_, ?_, ?_⟩
      · simp [chunkLoop, hlt, hcs]
      · intro c hc
        rcases List.mem_cons.mp hc with rfl | hc'
        · simp [mkChunk, ← hstart]
        · exact hslice c hc'
      · intro i hsi hil
        by_cases hi : i < start + cfg.chunk_size - cfg.chunk_overlap
        · refine ⟨mkChunk cfg doc start num, by simp, ?_, ?_⟩
          · simp [mkChunk, ← hstart, hsi]
          · simp only [mkChunk, ← hstart]
            omega
        · obtain ⟨c, hcmem, hcl, hcr⟩ := hcover i (by omega) hil
          exact ⟨c, List.mem_cons_of_mem _ hcmem, hcl, hcr⟩
      · simp only [List.map_cons, hnums, List.length_cons, List.range'_succ, mkChunk]
      · intro hzero
        have hj := hjoin hzero
        simp only [List.map_cons, List.flatten_cons, hj, mkChunk]
        have hdd : (doc.text.drop start).drop cfg.chunk_size =
            doc.text.drop (start + cfg.chunk_size - cfg.chunk_overlap) := by
          rw [List.drop_drop]
          congr 1
          omega
        rw [← hdd]
        exact List.take_append_drop _ _
    · refine ⟨[], by simp [chunkLoop, hlt], by simp, ?_, by simp, ?_⟩
      · intro i hsi hil
        omega
      · intro _
        symm
        simpa using List.drop_eq_nil_of_le (by omega)

/-- C4: under the precondition `overlap < chunkSize`, the emitted windows
`[num·(size−overlap), num·(size−overlap)+size)` cover `[0, len(text))` and
each chunk carries exactly the slice of its window; with `overlap = 0` the
chunk texts concatenate back to the document text with no gaps or repeats;
empty text yields zero chunks; and `chunk_number` runs `0, 1, 2, ...` in
emission order. -/
theorem c4_chunk_coverage (cfg : IngestConfig) (doc : IngestDoc)
    (hov : cfg.chunk_overlap < cfg.chunk_size) :
    (∀ i < doc.text.length, ∃ c ∈ chunk_document cfg doc,
        c.chunk_number * (cfg.chunk_size - cfg.chunk_overlap) ≤ i ∧
        i < c.chunk_number * (cfg.chunk_size - cfg.chunk_overlap) + cfg.chunk_size) ∧
    (∀ c ∈ chunk_document cfg doc,
        c.text = (doc.text.drop (c.chunk_number * (cfg.chunk_size - cfg.chunk_overlap))).take
          cfg.chunk_size) ∧
    (cfg.chunk_overlap = 0 →
      ((chunk_document cfg doc).map (·.text)).flatten = doc.text) ∧
    (doc.text = [] → chunk_document cfg doc = []) ∧
    (chunk_document cfg doc).map (·.chunk_number) =
      List.range (chunk_document cfg doc).length := by
  by_cases hempty : doc.text.isEmpty
  · have htext : doc.text = [] := List.isEmpty_iff.mp hempty
    have hcd : chunk_document cfg doc = [] := by simp [chunk_document, hempty]
    refine ⟨?_, ?_, ?_, fun _ => hcd, ?_⟩
    · intro i hi
      rw [htext] at hi
      exact absurd hi (by simp)
    · intro c hc
      rw [hcd] at hc
      exact absurd hc (by simp)
    · intro _
      rw [hcd, htext]
      rfl
    · rw [hcd]
      rfl
  · obtain ⟨cs, hcs, hslice, hcover, hnums, hjoin⟩ :=
      chunkLoop_sound cfg doc hov doc.text.length 0 0 (by omega) (by simp)
    have hcd : chunk_document cfg doc = cs := by
      simp [chunk_document, hempty, hcs]
    rw [hcd]
    refine ⟨fun i hi => hcover i (Nat.zero_le i) hi, hslice, ?_,
      fun htext => absurd (List.isEmpty_iff.mpr htext) hempty, ?_⟩
    · intro hzero
      simpa using hjoin hzero
    · rw [hnums, List.range_eq_range']

/-- Concrete chunker configuration for the C4 witness: size 3, overlap 1. -/
def c4Cfg : IngestConfig := { chunk_size := 3, chunk_overlap := 1 }

/-- Concrete document for the C4 witness. -/
def c4Doc : IngestDoc := { text := "abcde".data }

/-- Witness for `c4_chunk_coverage` at size 3, overlap 1 and text "abcde". -/
theorem c4_chunk_coverage_witness :
    (∀ i < c4Doc.text.length, ∃ c ∈ chunk_document c4Cfg c4Doc,
        c.chunk_number * (c4Cfg.chunk_size - c4Cfg.chunk_overlap) ≤ i ∧
        i < c.chunk_number * (c4Cfg.chunk_size - c4Cfg.chunk_overlap) + c4Cfg.chunk_size) ∧
    (∀ c ∈ chunk_document c4Cfg c4Doc,
        c.text = (c4Doc.text.drop (c.chunk_number * (c4Cfg.chunk_size - c4Cfg.chunk_overlap))).take
          c4Cfg.chunk_size) ∧
    (c4Cfg.chunk_overlap = 0 →
      ((chunk_document c4Cfg c4Doc).map (·.text)).flatten = c4Doc.text) ∧
    (c4Doc.text = [] → chunk_document c4Cfg c4Doc = []) ∧
    (chunk_document c4Cfg c4Doc).map (·.chunk_number) =
      List.range (chunk_document c4Cfg c4Doc).length :=
  c4_chunk_coverage c4Cfg c4Doc (by decide)

/-- Auxiliary divergence lemma: with `size ≤ overlap` the window start stays
at 0, so on non-empty text the loop consumes all fuel, at every fuel. -/
theorem chunkLoop_stuck (cfg : IngestConfig) (doc : IngestDoc)
    (hov : cfg.chunk_size ≤ cfg.chunk_overlap) (hpos : 0 < doc.text.length) :
    ∀ (fuel num : Nat), chunkLoop cfg doc fuel 0 num = none := by
  intro fuel
  induction fuel with
  | zero => intro num; simp [chunkLoop, hpos]
  | succ f ih =>
    intro num
    have hzero : 0 + cfg.chunk_size - cfg.chunk_overlap = 0 := by omega
    simp only [chunkLoop, hpos, if_true, hzero, ih (num + 1), Option.map_none']

/-- C5: the chunking loop terminates for every input text under the
precondition `overlap < chunkSize` (the fuel `len(text)` suffices), and the
precondition is not checked at runtime: for non-empty text with
`overlap ≥ chunkSize` the window start never advances and the loop exhausts
every fuel bound, i.e. it does not terminate. -/
theorem c5_chunk_termination :
    (∀ (cfg : IngestConfig) (doc : IngestDoc), cfg.chunk_overlap < cfg.chunk_size →
      ∃ cs, chunkLoop cfg doc doc.text.length 0 0 = some cs) ∧
    (∀ (cfg : IngestConfig) (doc : IngestDoc), cfg.chunk_size ≤ cfg.chunk_overlap →
      doc.text ≠ [] → ∀ fuel, chunkLoop cfg doc fuel 0 0 = none) := by
  constructor
  · intro cfg doc hov
    obtain ⟨cs, hcs, -⟩ := chunkLoop_sound cfg doc hov doc.text.length 0 0 (by omega) (by simp)
    exact ⟨cs, hcs⟩
  · intro cfg doc hov hne fuel
    exact chunkLoop_stuck cfg doc hov (List.length_pos.mpr hne) fuel 0

/-! ## C3 — ingestion partial-failure semantics -/

/-- Ingestor configuration with the constructor defaults (512 / 50). -/
def c3Config : IngestConfig := {}

/-- First document of the C3 scenario. -/
def c3Doc1 : IngestDoc := { text := "alpha".data }

/-- Second document of the C3 scenario — its chunk text is the one the
embedding collaborator rejects. -/
def c3Doc2 : IngestDoc := { text := "beta".data }

/-- Third document of the C3 scenario. -/
def c3Doc3 : IngestDoc := { text := "gamma".data }

/-- An embedding collaborator that fails exactly on document 2's chunk
texts and embeds everything else as `[0]`. -/
def c3Embed : List Str → Except Unit (List Vec) := fun texts =>
  if texts = ["beta".data] then .error () else .ok (texts.map fun _ => [0])

/-- An upsert collaborator that always succeeds. -/
def c3Upsert : List Point → Except Unit Unit := fun _ => .ok ()

/-- C3: `ingest_documents` never raises and returns the length of the input
list (0 for an empty list) for every batch and every behaviour of the
embedding and upsert collaborators — not the number of documents that
survived — and per-document failures are isolated: in the concrete
3-document run where document 2 fails to embed, the point batches of
documents 1 and 3 are still upserted and the returned count is 3. -/
theorem c3_ingest_partial_failure :
    (∀ (cfg : IngestConfig) (embedF : List Str → Except Unit (List Vec))
        (upsertF : List Point → Except Unit Unit) (documents : List IngestDoc),
      (ingest_documents cfg embedF upsertF documents).1 = documents.length) ∧
    (ingest_documents c3Config c3Embed c3Upsert [c3Doc1, c3Doc2, c3Doc3] =
      (3, [[⟨[0], mkChunk c3Config c3Doc1 0 0⟩], [⟨[0], mkChunk c3Config c3Doc3 0 0⟩]])) := by
  constructor
  · intro cfg embedF upsertF documents
    unfold ingest_documents
    by_cases h : documents.isEmpty
    · simp [h, List.isEmpty_iff.mp h]
    · simp [h]
  · decide

/-! ## Crawl frontier controller (`services/crawler/crawler.py`)

`WebCrawler._get_domain` is `urlparse(url).netloc`: strip a leading
`scheme:` when the text before the first `:` is a valid scheme, then, when
the remainder starts with `//`, the netloc runs up to the next `/`, `?` or
`#`. -/

/-- Characters allowed in a URL scheme after the leading letter. -/
def isSchemeChar (c : Char) : Bool := c.isAlphanum || c == '+' || c == '-' || c == '.'

/-- Whether the text before the first `:` is a valid scheme. -/
def validScheme (pre : Str) : Bool :=
  !pre.isEmpty && (pre.headD ' ').isAlpha && pre.all isSchemeChar

/-- Strip a leading `scheme:` from a URL, when present. -/
def splitScheme (url : Str) : Str :=
  let pre := url.takeWhile fun c => c != ':'
  if pre.length < url.length ∧ validScheme pre = true then url.drop (pre.length + 1) else url

/-- `WebCrawler._get_domain`: the netloc of the URL (empty when the URL has
no `//` authority part). -/
def get_domain (url : Str) : Str :=
  let rest := splitScheme url
  if rest.take 2 = ['/', '/'] then
    (rest.drop 2).takeWhile fun c => !(c == '/') && !(c == '?') && !(c == '#')
  else []

/-- The denylist scan of `WebCrawler._should_follow_link`: the case-insensitive
`re.search` patterns `/login /logout /signin /signup /register /download`,
the anchored `\.pdf$ \.zip$ \.exe$`, and `#`. -/
def skipLink (link : Str) : Bool :=
  let low := lowerStr link
  containsSub "/login".data low || containsSub "/logout".data low ||
    containsSub "/signin".data low || containsSub "/signup".data low ||
    containsSub "/register".data low || containsSub "/download".data low ||
    endsWith ".pdf".data low || endsWith ".zip".data low || endsWith ".exe".data low ||
    containsSub "#".data low

/-- `WebCrawler._should_follow_link`: starts with `"http"`, same netloc as
the current page, and no denylist pattern matches. -/
def should_follow_link (link current_url : Str) : Bool :=
  startsWith "http".data link &&
    (get_domain link == get_domain current_url) &&
    !skipLink link

/-- What one `_crawl_page` fetch observes of the web: whether a Document is
produced and the (absolute, `urljoin`-resolved) candidate link URLs of the
page.  A failed fetch or unsupported content type is `⟨false, []⟩`; non-HTML
content always has `links = []`. -/
structure FetchResult where
  hasDoc : Bool
  links : List Str

/-- The web, as the pure observation each URL's fetch produces. -/
abbrev Web := Str → FetchResult

/-- `WebCrawler._crawl_page` / `_parse_html`: the produced Document carries
the fetched URL; candidate links are kept when `_should_follow_link`
accepts them against the current page URL. -/
def crawl_page (web : Web) (url : Str) : Option Str × List Str :=
  ((if (web url).hasDoc then some url else none),
    (web url).links.filter fun l => should_follow_link l url)

structure CrawlConfig where
  max_pages_per_domain : Nat
  max_depth : Nat

/-- The crawl loop state: the visited set (as a duplicate-free list), the
accumulated Documents as `(url, dequeue depth)` pairs, the FIFO queue of
`(url, depth)` pairs, and a log of every URL whose fetch was attempted. -/
structure CrawlState where
  visited : List Str
  documents : List (Str × Nat)
  queue : List (Str × Nat)
  fetchLog : List Str
deriving DecidableEq

/-- The `while queue and len(visited) < max_pages` loop of `WebCrawler.crawl`,
fuel-indexed (one fuel unit per queue pop; running out of fuel leaves the
residual state).  Skips visited URLs, URLs beyond `max_depth` and URLs off
the start domain; otherwise marks visited, fetches, collects the Document,
and — when `depth < max_depth` — enqueues the accepted links not yet
visited, at `depth + 1`. -/
def crawlLoop (cfg : CrawlConfig) (web : Web) (start_domain : Str) :
    Nat → CrawlState → CrawlState
  | 0, st => st
  | fuel + 1, st =>
    match st.queue with
    | [] => st
    | (url, depth) :: rest =>
      if st.visited.length < cfg.max_pages_per_domain then
        if url ∈ st.visited then
          crawlLoop cfg web start_domain fuel { st with queue := rest }
        else if cfg.max_depth < depth then
          crawlLoop cfg web start_domain fuel { st with queue := rest }
        else if ¬ (get_domain url = start_domain) then
          crawlLoop cfg web start_domain fuel { st with queue := rest }
        else
          let visited' := st.visited ++ [url]
          let pr := crawl_page web url
          let newLinks := if depth < cfg.max_depth then
              (pr.2.filter fun l => !(visited'.contains l)).map fun l => (l, depth + 1)
            else []
          crawlLoop cfg web start_domain fuel
            { visited := visited'
              documents := st.documents ++ (pr.1.map fun u => (u, depth)).toList
              queue := rest ++ newLinks
              fetchLog := st.fetchLog ++ [url] }
      else st

/-- The initial crawl state: the queue seeded with `(start_url, 0)`. -/
def initState (start_url : Str) : CrawlState :=
  { visited := [], documents := [], queue := [(start_url, 0)], fetchLog := [] }

/-- `WebCrawler.crawl`: run the loop from the seeded state, scoped to the
start URL's domain, and return the accumulated Documents. -/
def crawl (cfg : CrawlConfig) (web : Web) (start_url : Str) (fuel : Nat) : List (Str × Nat) :=
  (crawlLoop cfg web (get_domain start_url) fuel (initState start_url)).documents

/-! ## C1 / C10 — crawl loop invariants -/

/-- The loop invariant: page budget respected; every visited URL and every
Document URL on the start domain; Document depths within `max_depth`; the
fetch log is exactly the visited list; no URL visited twice; at most one
Document per visited URL. -/
def CrawlInv (cfg : CrawlConfig) (start_domain : Str) (st : CrawlState) : Prop :=
  st.visited.length ≤ cfg.max_pages_per_domain ∧
  (∀ u ∈ st.visited, get_domain u = start_domain) ∧
  (∀ p ∈ st.documents, get_domain p.1 = start_domain ∧ p.2 ≤ cfg.max_depth) ∧
  st.fetchLog = st.visited ∧
  st.visited.Nodup ∧
  st.documents.length ≤ st.visited.length

theorem crawlLoop_zero (cfg : CrawlConfig) (web : Web) (sd : Str) (st : CrawlState) :
    crawlLoop cfg web sd 0 st = st := rfl

theorem crawlLoop_succ_nil (cfg : CrawlConfig) (web : Web) (sd : Str) (f : Nat)
    (st : CrawlState) (hq : st.queue = []) : crawlLoop cfg web sd (f + 1) st = st := by
  rw [crawlLoop, hq]

/-- One unfolding of the loop body when the queue is non-empty. -/
theorem crawlLoop_succ_cons (cfg : CrawlConfig) (web : Web) (sd : Str) (f : Nat)
    (st : CrawlState) (url : Str) (depth : Nat) (rest : List (Str × Nat))
    (hq : st.queue = (url, depth) :: rest) :
    crawlLoop cfg web sd (f + 1) st =
      (if st.visited.length < cfg.max_pages_per_domain then
        if url ∈ st.visited then crawlLoop cfg web sd f { st with queue := rest }
        else if cfg.max_depth < depth then crawlLoop cfg web sd f { st with queue := rest }
        else if ¬ (get_domain url = sd) then crawlLoop cfg web sd f { st with queue := rest }
        else
          crawlLoop cfg web sd f
            { visited := st.visited ++ [url]
              documents := st.documents ++ ((crawl_page web url).1.map fun u => (u, depth)).toList
              queue := rest ++ (if depth < cfg.max_depth then
                  ((crawl_page web url).2.filter fun l => !((st.visited ++ [url]).contains l)).map
                    fun l => (l, depth + 1)
                else [])
              fetchLog := st.fetchLog ++ [url] }
      else st) := by
  rw [crawlLoop, hq]

theorem crawlLoop_inv (cfg : CrawlConfig) (web : Web) (sd : Str) :
    ∀ (fuel : Nat) (st : CrawlState), CrawlInv cfg sd st →
      CrawlInv cfg sd (crawlLoop cfg web sd fuel st) := by
  intro fuel
  induction fuel with
  | zero => intro st hinv; exact hinv
  | succ f ih =>
    intro st hinv
    obtain ⟨hbudget, hvdom, hdocs, hlog, hnodup, hdlen⟩ := hinv
    cases hq : st.queue with
    | nil =>
      rw [crawlLoop_succ_nil cfg web sd f st hq]
      exact ⟨hbudget, hvdom, hdocs, hlog, hnodup, hdlen⟩
    | cons front rest =>
      obtain ⟨url, depth⟩ := front
      rw [crawlLoop_succ_cons cfg web sd f st url depth rest hq]
      by_cases hb : st.visited.length < cfg.max_pages_per_domain
      · rw [if_pos hb]
        by_cases hvis : url ∈ st.visited
        · rw [if_pos hvis]
          exact ih _ ⟨hbudget, hvdom, hdocs, hlog, hnodup, hdlen⟩
        · rw [if_neg hvis]
          by_cases hdeep : cfg.max_depth < depth
          · rw [if_pos hdeep]
            exact ih _ ⟨hbudget, hvdom, hdocs, hlog, hnodup, hdlen⟩
          · rw [if_neg hdeep]
            by_cases hdom : ¬ (get_domain url = sd)
            · rw [if_pos hdom]
              exact ih _ ⟨hbudget, hvdom, hdocs, hlog, hnodup, hdlen⟩
            · rw [if_neg hdom]
              push_neg at hdom
              refine ih _ ⟨?_, ?_, ?_, ?_, ?_, ?_⟩
              · simpa using hb
              · intro u hu
                rcases List.mem_append.mp hu with hu | hu
                · exact hvdom u hu
                · rw [List.mem_singleton.mp hu]
                  exact hdom
              · intro p hp
                rcases List.mem_append.mp hp with hp | hp
                · exact hdocs p hp
                · rcases hopt : (crawl_page web url).1 with - | u
                  · rw [hopt] at hp
                    simp at hp
                  · rw [hopt] at hp
                    simp only [Option.map_some', Option.toList_some, List.mem_singleton] at hp
                    have hu : u = url := by
                      unfold crawl_page at hopt
                      by_cases hdocb : (web url).hasDoc <;> simp [hdocb] at hopt
                      exact hopt.symm
                    rw [hp, hu]
                    exact ⟨hdom, by omega⟩
              · simp [hlog]
              · rw [List.nodup_append]
                exact ⟨hnodup, List.nodup_singleton url, by
                  intro a ha hmem
                  rw [List.mem_singleton.mp hmem] at ha
                  exact hvis ha⟩
              · have hlen1 : ((crawl_page web url).1.map fun u => (u, depth)).toList.length ≤ 1 := by
                  rcases (crawl_page web url).1 with - | u <;> simp
                simp only [List.length_append, List.length_singleton]
                omega
      · rw [if_neg hb]
        exact ⟨hbudget, hvdom, hdocs, hlog, hnodup, hdlen⟩

/-- C1: for every crawl (any web, any fuel/point in time), the visited set
never exceeds `max_pages_per_domain`; every visited URL and the URL of every
returned Document has the start URL's netloc (hence its host); and every
returned Document was dequeued at a depth ≤ `max_depth`. -/
theorem c1_crawl_scope_invariants (cfg : CrawlConfig) (web : Web) (start_url : Str)
    (fuel : Nat) :
    (crawlLoop cfg web (get_domain start_url) fuel (initState start_url)).visited.length ≤
        cfg.max_pages_per_domain ∧
    (∀ u ∈ (crawlLoop cfg web (get_domain start_url) fuel (initState start_url)).visited,
        get_domain u = get_domain start_url) ∧
    (∀ p ∈ (crawlLoop cfg web (get_domain start_url) fuel (initState start_url)).documents,
        get_domain p.1 = get_domain start_url ∧ p.2 ≤ cfg.max_depth) := by
  have hinit : CrawlInv cfg (get_domain start_url) (initState start_url) := by
    refine ⟨by simp [initState], ?_, ?_, rfl, List.nodup_nil, by simp [initState]⟩
    · intro u hu
      simp [initState] at hu
    · intro p hp
      simp [initState] at hp
  obtain ⟨h1, h2, h3, -, -, -⟩ := crawlLoop_inv cfg web (get_domain start_url) fuel _ hinit
  exact ⟨h1, h2, h3⟩

/-- C10: within one crawl every URL is fetched at most once — the fetch log
is duplicate-free and coincides with the visited set (URLs are marked
visited when fetched, whether or not the fetch yields a Document, so failed
or unsupported fetches still consume the page budget) — and the number of
returned Documents is bounded by `|visited| ≤ max_pages_per_domain`. -/
theorem c10_fetch_at_most_once (cfg : CrawlConfig) (web : Web) (start_url : Str)
    (fuel : Nat) :
    (crawlLoop cfg web (get_domain start_url) fuel (initState start_url)).fetchLog.Nodup ∧
    (crawlLoop cfg web (get_domain start_url) fuel (initState start_url)).fetchLog =
      (crawlLoop cfg web (get_domain start_url) fuel (initState start_url)).visited ∧
    (crawlLoop cfg web (get_domain start_url) fuel (initState start_url)).documents.length ≤
      (crawlLoop cfg web (get_domain start_url) fuel (initState start_url)).visited.length ∧
    (crawlLoop cfg web (get_domain start_url) fuel (initState start_url)).visited.length ≤
      cfg.max_pages_per_domain := by
  have hinit : CrawlInv cfg (get_domain start_url) (initState start_url) := by
    refine ⟨by simp [initState], ?_, ?_, rfl, List.nodup_nil, by simp [initState]⟩
    · intro u hu
      simp [initState] at hu
    · intro p hp
      simp [initState] at hp
  obtain ⟨h1, -, -, h4, h5, h6⟩ := crawlLoop_inv cfg web (get_domain start_url) fuel _ hinit
  exact ⟨h4 ▸ h5, h4, h6, h1⟩

/-! ## C8 — link filtering at enqueue time -/

/-- Modelled from the spec's words: an "absolute HTTP(S) URL", i.e. a URL
whose scheme is `http` or `https`. -/
def specAbsoluteHttpUrl (u : Str) : Bool :=
  startsWith "http://".data u || startsWith "https://".data u

/-- The crawl start URL of the C8 scenarios. -/
def c8Start : Str := "http://example.com/".data

/-- A same-netloc link with scheme `httpx` — not an HTTP(S) URL. -/
def c8Evil : Str := "httpx://example.com/evil".data

/-- A 1-page web whose page links only to `c8Evil`. -/
def c8Web : Web := fun u => if u = c8Start then ⟨true, [c8Evil]⟩ else ⟨false, []⟩

def c8Cfg : CrawlConfig := ⟨10, 1⟩

/-- C8 (counterexample): the claim that a link is enqueued only when it is an
absolute HTTP(S) URL is false — `_should_follow_link` only checks
`link.startswith("http")`, so crawling from `http://example.com/` a page
linking to `httpx://example.com/evil` enqueues that link even though its
scheme is `httpx`, not HTTP(S). -/
theorem c8_claim_counterexample :
    (crawlLoop c8Cfg c8Web (get_domain c8Start) 1 (initState c8Start)).queue =
        [(c8Evil, 1)] ∧
      specAbsoluteHttpUrl c8Evil = false := by
  constructor
  · decide
  · decide

/-- Config with `max_depth = 0` for the 1-page scenario. -/
def c8Cfg0 : CrawlConfig := ⟨10, 0⟩

/-- A 1-page web whose page carries three same-domain anchors. -/
def c8Web0 : Web := fun u =>
  if u = c8Start then
    ⟨true, ["http://example.com/a".data, "http://example.com/b".data,
            "http://example.com/c".data]⟩
  else ⟨false, []⟩

/-- C8 (amended): during a crawl, a newly enqueued link satisfies all of:
the dequeued page's depth is strictly below `max_depth`, the enqueued depth
is `depth + 1`, `_should_follow_link` accepted it — so it starts with
`"http"` (not necessarily a well-formed HTTP(S) scheme), shares the current
page's netloc, and matches no denylist pattern; in particular no URL ending
in `.pdf` is ever enqueued — and it was not in the visited set at that
moment.  And crawling a 1-page site with `max_depth = 0` returns exactly one
Document and enqueues nothing regardless of the page's anchors. -/
theorem c8_link_enqueue_conditions :
    (∀ (cfg : CrawlConfig) (web : Web) (sd : Str) (st : CrawlState) (url : Str)
        (depth : Nat) (rest : List (Str × Nat)) (l : Str) (d : Nat),
      st.queue = (url, depth) :: rest →
      (l, d) ∈ (crawlLoop cfg web sd 1 st).queue →
      (l, d) ∈ st.queue ∨
        (depth < cfg.max_depth ∧ d = depth + 1 ∧ should_follow_link l url = true ∧
          l ∉ st.visited ++ [url] ∧ startsWith "http".data l = true ∧
          get_domain l = get_domain url ∧ skipLink l = false ∧
          endsWith ".pdf".data (lowerStr l) = false)) ∧
    (crawl c8Cfg0 c8Web0 c8Start 5 = [(c8Start, 0)] ∧
      (crawlLoop c8Cfg0 c8Web0 (get_domain c8Start) 1 (initState c8Start)).queue = []) := by
  refine ⟨?_, by decide, by decide⟩
  intro cfg web sd st url depth rest l d hq hmem
  rw [crawlLoop_succ_cons cfg web sd 0 st url depth rest hq] at hmem
  by_cases hb : st.visited.length < cfg.max_pages_per_domain
  · rw [if_pos hb] at hmem
    by_cases hvis : url ∈ st.visited
    · rw [if_pos hvis, crawlLoop_zero] at hmem
      left
      rw [hq]
      exact List.mem_cons_of_mem _ hmem
    · rw [if_neg hvis] at hmem
      by_cases hdeep : cfg.max_depth < depth
      · rw [if_pos hdeep, crawlLoop_zero] at hmem
        left
        rw [hq]
        exact List.mem_cons_of_mem _ hmem
      · rw [if_neg hdeep] at hmem
        by_cases hdom : ¬ (get_domain url = sd)
        · rw [if_pos hdom, crawlLoop_zero] at hmem
          left
          rw [hq]
          exact List.mem_cons_of_mem _ hmem
        · rw [if_neg hdom, crawlLoop_zero] at hmem
          have hmem2 : (l, d) ∈ rest ++ (if depth < cfg.max_depth then
              ((crawl_page web url).2.filter fun x => !((st.visited ++ [url]).contains x)).map
                fun x => (x, depth + 1)
            else []) := hmem
          rcases List.mem_append.mp hmem2 with hr | hnew
          · left
            rw [hq]
            exact List.mem_cons_of_mem _ hr
          · by_cases hdlt : depth < cfg.max_depth
            · rw [if_pos hdlt] at hnew
              right
              obtain ⟨l0, hl0, heq⟩ := List.mem_map.mp hnew
              obtain ⟨hl0f, hl0c⟩ := List.mem_filter.mp hl0
              have hle : l0 = l := congrArg Prod.fst heq
              have hde : depth + 1 = d := congrArg Prod.snd heq
              rw [← hle, ← hde]
              have hsfl : should_follow_link l0 url = true := by
                unfold crawl_page at hl0f
                exact (List.mem_filter.mp hl0f).2
              have hnotv : l0 ∉ st.visited ++ [url] := by
                rw [Bool.not_eq_true'] at hl0c
                simpa using hl0c
              have hsf := hsfl
              simp only [should_follow_link, Bool.and_eq_true] at hsf
              obtain ⟨⟨hhttp, hbeq⟩, hnskip⟩ := hsf
              have hdomeq : get_domain l0 = get_domain url := by
                exact beq_iff_eq.mp hbeq
              have hskip : skipLink l0 = false := by
                rwa [Bool.not_eq_true'] at hnskip
              have hpdf : endsWith ".pdf".data (lowerStr l0) = false := by
                have h := hskip
                simp only [skipLink, Bool.or_eq_false_iff] at h
                exact h.1.1.1.2
              exact ⟨hdlt, rfl, hsfl, hnotv, hhttp, hdomeq, hskip, hpdf⟩
            · rw [if_neg hdlt] at hnew
              simp at hnew
  · rw [if_neg hb] at hmem
    left
    exact hmem

end Airag
